import Mathlib

/-!
# Verification of the project summarizer (`project-sum.py`)

A shallow embedding of the file-aggregation pipeline of `project-sum.py`:
the robust multi-encoding decoder (`read_text_robust`), the Unicode
normalizer (`normalize_text_basic`, `normalize_text_ascii_punct`,
`apply_normalization`), the language-specific cleaner (`clean_code`),
and the tree walker / aggregator (`summarize_project_code`).

Conventions of the embedding:
* raw file bytes are `List Nat` (each element meant to be `< 256`,
  captured by `bytesOk` where a theorem needs it);
* decoded text is a `List Nat` of Unicode code points (this allows
  surrogate code points, which the Python `surrogateescape` handler can
  produce and which the Lean `Char` type cannot represent);
* fallible Python operations return `Option`/`Except`;
* the filesystem is a finite tree (`FSDir`/`FSForest`); a file whose
  content is `none` models a file that cannot be opened (`open` raising),
  mirroring the single point where `read_text_robust` re-raises.
-/

namespace ProjectSum

/-- All elements of the list are genuine byte values (`< 256`). -/
def bytesOk (data : List Nat) : Bool :=
  data.all (· < 256)

/-- `startsWithCp pat l` is the Python test `l.startswith(pat)` on byte/code-point lists. -/
def startsWithCp : List Nat → List Nat → Bool
  | [], _ => true
  | _ :: _, [] => false
  | p :: ps, d :: ds => p == d && startsWithCp ps ds

/-- Association-list lookup used for the fixed translation/decoding tables. -/
def assocLookup {α β : Type} [DecidableEq α] (k : α) : List (α × β) → Option β
  | [] => none
  | (k', v) :: rest => if k = k' then some v else assocLookup k rest

/-- UTF-8 continuation byte test (`0x80..0xBF`). -/
def utf8Cont (b : Nat) : Bool :=
  0x80 ≤ b && b ≤ 0xBF

/-- Validity of a completed UTF-8 scalar given its byte-sequence length:
3-byte forms must not be overlong (`≥ 0x800`) or surrogates, 4-byte forms
must land in `0x10000..0x10FFFF`; 2-byte forms are valid by construction
(the lead byte range `0xC2..0xDF` already excludes overlong forms). -/
def utf8ScalarOk (cp size : Nat) : Bool :=
  if size == 2 then true
  else if size == 3 then 0x800 ≤ cp && !(0xD800 ≤ cp && cp ≤ 0xDFFF)
  else 0x10000 ≤ cp && cp ≤ 0x10FFFF

/-- Strict UTF-8 decoding as a byte-at-a-time state machine: `pending` is
the number of continuation bytes still expected, `acc` the value
accumulated so far, `size` the total length of the current sequence. -/
def utf8Run (pending acc size : Nat) : List Nat → Option (List Nat)
  | [] => if pending == 0 then some [] else none
  | b :: rest =>
    if pending == 0 then
      if b < 0x80 then (utf8Run 0 0 0 rest).map (b :: ·)
      else if 0xC2 ≤ b && b ≤ 0xDF then utf8Run 1 (b - 0xC0) 2 rest
      else if 0xE0 ≤ b && b ≤ 0xEF then utf8Run 2 (b - 0xE0) 3 rest
      else if 0xF0 ≤ b && b ≤ 0xF4 then utf8Run 3 (b - 0xF0) 4 rest
      else none
    else if utf8Cont b then
      if pending == 1 then
        if utf8ScalarOk (acc * 0x40 + (b - 0x80)) size then
          (utf8Run 0 0 0 rest).map ((acc * 0x40 + (b - 0x80)) :: ·)
        else none
      else utf8Run (pending - 1) (acc * 0x40 + (b - 0x80)) size rest
    else none

/-- Strict UTF-8 decoding (Python `bytes.decode("utf-8")`): rejects overlong
forms, surrogates, code points above `0x10FFFF` and truncated sequences;
`none` models `UnicodeDecodeError`. -/
def utf8Decode (data : List Nat) : Option (List Nat) :=
  utf8Run 0 0 0 data

/-- Python `bytes.decode("utf-8-sig")`: strip one UTF-8 BOM if present, then
strict UTF-8. -/
def utf8SigDecode (data : List Nat) : Option (List Nat) :=
  if startsWithCp [0xEF, 0xBB, 0xBF] data then utf8Decode (data.drop 3)
  else utf8Decode data

/-- UTF-16 code-unit decoding at a fixed endianness: pairs of bytes form
units, high/low surrogates must pair up, a trailing odd byte or a lone
surrogate fails (Python strict behaviour). -/
def utf16DecodeUnits (be : Bool) : List Nat → Option (List Nat)
  | [] => some []
  | [_] => none
  | b1 :: b2 :: rest =>
    if b1 < 256 && b2 < 256 then
      let u := if be then 256 * b1 + b2 else b1 + 256 * b2
      if u < 0xD800 || 0xE000 ≤ u then (utf16DecodeUnits be rest).map (u :: ·)
      else if u ≤ 0xDBFF then
        match rest with
        | b3 :: b4 :: rest2 =>
          if b3 < 256 && b4 < 256 then
            let u2 := if be then 256 * b3 + b4 else b3 + 256 * b4
            if 0xDC00 ≤ u2 && u2 ≤ 0xDFFF then
              (utf16DecodeUnits be rest2).map
                ((0x10000 + (u - 0xD800) * 0x400 + (u2 - 0xDC00)) :: ·)
            else none
          else none
        | _ => none
      else none
    else none

/-- Python `bytes.decode("utf-16")`: auto-detect endianness from a BOM and
strip it; without a BOM, native (little-endian) order. -/
def utf16Decode (data : List Nat) : Option (List Nat) :=
  if startsWithCp [0xFF, 0xFE] data then utf16DecodeUnits false (data.drop 2)
  else if startsWithCp [0xFE, 0xFF] data then utf16DecodeUnits true (data.drop 2)
  else utf16DecodeUnits false data

/-- UTF-32 code-unit decoding at a fixed endianness: 4-byte units, values
must be scalar values (`≤ 0x10FFFF`, not surrogates), a trailing partial
unit fails. -/
def utf32DecodeUnits (be : Bool) : List Nat → Option (List Nat)
  | [] => some []
  | b1 :: b2 :: b3 :: b4 :: rest =>
    if b1 < 256 && b2 < 256 && b3 < 256 && b4 < 256 then
      let u := if be then ((b1 * 256 + b2) * 256 + b3) * 256 + b4
               else ((b4 * 256 + b3) * 256 + b2) * 256 + b1
      if u ≤ 0x10FFFF && !(0xD800 ≤ u && u ≤ 0xDFFF) then
        (utf32DecodeUnits be rest).map (u :: ·)
      else none
    else none
  | _ => none

/-- Python `bytes.decode("utf-32")`: auto-detect endianness from a 4-byte BOM
and strip it; without a BOM, native (little-endian) order. -/
def utf32Decode (data : List Nat) : Option (List Nat) :=
  if startsWithCp [0xFF, 0xFE, 0x00, 0x00] data then utf32DecodeUnits false (data.drop 4)
  else if startsWithCp [0x00, 0x00, 0xFE, 0xFF] data then utf32DecodeUnits true (data.drop 4)
  else utf32DecodeUnits false data

/-- Byte-wise decoding helper: all bytes must decode. -/
def decodeMap (f : Nat → Option Nat) : List Nat → Option (List Nat)
  | [] => some []
  | b :: rest =>
    match f b, decodeMap f rest with
    | some c, some cs => some (c :: cs)
    | _, _ => none

/-- The 27 defined entries of Windows-1252 in `0x80..0x9F`; the bytes
`0x81, 0x8D, 0x8F, 0x90, 0x9D` are undefined and make cp1252 decoding fail. -/
def cp1252High : List (Nat × Nat) :=
  [(0x80, 0x20AC), (0x82, 0x201A), (0x83, 0x0192), (0x84, 0x201E),
   (0x85, 0x2026), (0x86, 0x2020), (0x87, 0x2021), (0x88, 0x02C6),
   (0x89, 0x2030), (0x8A, 0x0160), (0x8B, 0x2039), (0x8C, 0x0152),
   (0x8E, 0x017D), (0x91, 0x2018), (0x92, 0x2019), (0x93, 0x201C),
   (0x94, 0x201D), (0x95, 0x2022), (0x96, 0x2013), (0x97, 0x2014),
   (0x98, 0x02DC), (0x99, 0x2122), (0x9A, 0x0161), (0x9B, 0x203A),
   (0x9C, 0x0153), (0x9E, 0x017E), (0x9F, 0x0178)]

/-- One byte of Windows code page 1252. -/
def cp1252Byte (b : Nat) : Option Nat :=
  if b < 0x80 then some b
  else if b ≤ 0x9F then assocLookup b cp1252High
  else if b < 0x100 then some b
  else none

/-- Python `bytes.decode("cp1252")`. -/
def cp1252Decode (data : List Nat) : Option (List Nat) :=
  decodeMap cp1252Byte data

/-- One byte of ISO-8859-1: every byte maps to the identical code point. -/
def latin1Byte (b : Nat) : Option Nat :=
  if b < 0x100 then some b else none

/-- Python `bytes.decode("latin-1")` — total on byte sequences. -/
def latin1Decode (data : List Nat) : Option (List Nat) :=
  decodeMap latin1Byte data

/-- Python `bytes.decode("utf-8", errors="surrogateescape")`: like strict
UTF-8, but any byte that cannot be decoded is mapped to `0xDC00 + byte`
and decoding resumes at the next byte. Total on byte sequences. -/
def utf8SurDecode : List Nat → Option (List Nat)
  | [] => some []
  | b :: rest =>
    if b < 0x80 then (utf8SurDecode rest).map (b :: ·)
    else if 0xC2 ≤ b && b ≤ 0xDF then
      match hr : rest with
      | b2 :: rest2 =>
        if utf8Cont b2 then
          (utf8SurDecode rest2).map (((b - 0xC0) * 0x40 + (b2 - 0x80)) :: ·)
        else (utf8SurDecode (b2 :: rest2)).map ((0xDC00 + b) :: ·)
      | [] => some [0xDC00 + b]
    else if 0xE0 ≤ b && b ≤ 0xEF then
      match hr : rest with
      | b2 :: b3 :: rest2 =>
        if utf8Cont b2 && utf8Cont b3 then
          let cp := (b - 0xE0) * 0x1000 + (b2 - 0x80) * 0x40 + (b3 - 0x80)
          if 0x800 ≤ cp && !(0xD800 ≤ cp && cp ≤ 0xDFFF) then
            (utf8SurDecode rest2).map (cp :: ·)
          else (utf8SurDecode (b2 :: b3 :: rest2)).map ((0xDC00 + b) :: ·)
        else (utf8SurDecode (b2 :: b3 :: rest2)).map ((0xDC00 + b) :: ·)
      | [b2] => (utf8SurDecode [b2]).map ((0xDC00 + b) :: ·)
      | [] => some [0xDC00 + b]
    else if 0xF0 ≤ b && b ≤ 0xF4 then
      match hr : rest with
      | b2 :: b3 :: b4 :: rest2 =>
        if utf8Cont b2 && utf8Cont b3 && utf8Cont b4 then
          let cp := (b - 0xF0) * 0x40000 + (b2 - 0x80) * 0x1000 +
            (b3 - 0x80) * 0x40 + (b4 - 0x80)
          if 0x10000 ≤ cp && cp ≤ 0x10FFFF then
            (utf8SurDecode rest2).map (cp :: ·)
          else (utf8SurDecode (b2 :: b3 :: b4 :: rest2)).map ((0xDC00 + b) :: ·)
        else (utf8SurDecode (b2 :: b3 :: b4 :: rest2)).map ((0xDC00 + b) :: ·)
      | [b2, b3] => (utf8SurDecode [b2, b3]).map ((0xDC00 + b) :: ·)
      | [b2] => (utf8SurDecode [b2]).map ((0xDC00 + b) :: ·)
      | [] => some [0xDC00 + b]
    else if b < 0x100 then (utf8SurDecode rest).map ((0xDC00 + b) :: ·)
    else none
termination_by l => l.length
decreasing_by all_goals (simp_all; try omega)

/-- The ordered fallback chain of `read_text_robust` (lines 32-68 of
`project-sum.py`), applied to the raw bytes once they have been read:
strict UTF-8; UTF-8 with BOM; UTF-16 only if a UTF-16 BOM prefix is
present; UTF-32 only if a UTF-32 BOM prefix is present; cp1252; latin-1;
UTF-8 with `surrogateescape`; and the final `RuntimeError` branch. -/
def decodeChain (data : List Nat) : Except String (List Nat × String) :=
  match utf8Decode data with
  | some t => .ok (t, "utf-8")
  | none =>
    match utf8SigDecode data with
    | some t => .ok (t, "utf-8-sig")
    | none =>
      match (if startsWithCp [0xFF, 0xFE] data || startsWithCp [0xFE, 0xFF] data
             then utf16Decode data else none) with
      | some t => .ok (t, "utf-16")
      | none =>
        match (if startsWithCp [0xFF, 0xFE, 0x00, 0x00] data ||
                  startsWithCp [0x00, 0x00, 0xFE, 0xFF] data
               then utf32Decode data else none) with
        | some t => .ok (t, "utf-32")
        | none =>
          match cp1252Decode data with
          | some t => .ok (t, "cp1252")
          | none =>
            match latin1Decode data with
            | some t => .ok (t, "latin-1")
            | none =>
              match utf8SurDecode data with
              | some t => .ok (t, "utf-8-surrogateescape")
              | none => .error "Failed to decode with fallbacks"

/-- `read_text_robust` (lines 23-68): `none` content models a file-open
failure, which is re-raised as a `RuntimeError`; otherwise the byte
content is pushed through the fallback chain. -/
def read_text_robust (content : Option (List Nat)) : Except String (List Nat × String) :=
  match content with
  | none => .error "Error opening file"
  | some data => decodeChain data

/-- `true` iff the `Except` holds a success value (no exception raised). -/
def exceptOk {ε α : Type} : Except ε α → Bool
  | .ok _ => true
  | .error _ => false

/-! ## Unicode normalizer

`normalize_text_basic` first applies `unicodedata.normalize("NFC", text)`
and then a fixed `str.translate` table.  NFC is modelled by the UAX #15
canonical algorithm (canonical decomposition, canonical reordering,
canonical composition) over an explicit finite repertoire of character
data: a table of fully-decomposed canonical decompositions, the canonical
combining classes of the combining marks involved, and the corresponding
primary composites.  Characters outside the tables behave as NFC-inert
characters (no decomposition, combining class 0, no composition), which
is faithful for texts drawn from the covered repertoire. -/

/-- Canonical decompositions (fully decomposed), a Latin repertoire. -/
def decompList : List (Nat × List Nat) :=
  [(0xE1, [0x61, 0x301]), (0xE9, [0x65, 0x301]), (0xED, [0x69, 0x301]),
   (0xF3, [0x6F, 0x301]), (0xFA, [0x75, 0x301]), (0xE0, [0x61, 0x300]),
   (0xE8, [0x65, 0x300]), (0xF1, [0x6E, 0x303]), (0xE4, [0x61, 0x308]),
   (0xF6, [0x6F, 0x308]), (0xFC, [0x75, 0x308])]

/-- Canonical combining classes (all covered marks have class 230);
characters not listed have class 0. -/
def cccList : List (Nat × Nat) :=
  [(0x300, 230), (0x301, 230), (0x303, 230), (0x308, 230)]

/-- Primary composites: the pairs that canonically compose. -/
def compList : List ((Nat × Nat) × Nat) :=
  [((0x61, 0x301), 0xE1), ((0x65, 0x301), 0xE9), ((0x69, 0x301), 0xED),
   ((0x6F, 0x301), 0xF3), ((0x75, 0x301), 0xFA), ((0x61, 0x300), 0xE0),
   ((0x65, 0x300), 0xE8), ((0x6E, 0x303), 0xF1), ((0x61, 0x308), 0xE4),
   ((0x6F, 0x308), 0xF6), ((0x75, 0x308), 0xFC)]

/-- Canonical combining class of a code point. -/
def ccc (c : Nat) : Nat :=
  (assocLookup c cccList).getD 0

/-- Canonical (full) decomposition of one code point. -/
def canonDecomp (c : Nat) : List Nat :=
  (assocLookup c decompList).getD [c]

/-- Canonical decomposition of a text. -/
def decompose (t : List Nat) : List Nat :=
  t.flatMap canonDecomp

/-- Insert one code point before the first position not forced later by
the Canonical Ordering Algorithm: a pair of adjacent characters is
exchanged exactly when both combining classes are positive and strictly
decreasing. -/
def ccIns (c : Nat) : List Nat → List Nat
  | [] => [c]
  | d :: rest => if 0 < ccc d && ccc d < ccc c then d :: ccIns c rest else c :: d :: rest

/-- Canonical Ordering: stable sort of each run of positive-class marks. -/
def ccOrd : List Nat → List Nat
  | [] => []
  | c :: rest => ccIns c (ccOrd rest)

/-- Canonical Composition core: `L` is the last starter (or leading
character), `marks` the combining marks seen since `L` in reverse order.
A character composes with `L` when it is not blocked (no intervening
character of combining class `≥` its own) and the pair is a primary
composite; otherwise a starter flushes the pending run and a combining
mark joins it. -/
def composeRun (L : Nat) (marks : List Nat) : List Nat → List Nat
  | [] => L :: marks.reverse
  | c :: rest =>
    let blocked := match marks with
      | [] => false
      | m :: _ => ccc c ≤ ccc m
    match blocked, assocLookup (L, c) compList with
    | false, some L2 => composeRun L2 marks rest
    | _, _ =>
      if ccc c == 0 then (L :: marks.reverse) ++ composeRun c [] rest
      else composeRun L (c :: marks) rest

/-- Canonical Composition of a canonically ordered text. -/
def nfcCompose : List Nat → List Nat
  | [] => []
  | c :: rest => composeRun c [] rest

/-- The NFC normalization `unicodedata.normalize("NFC", ·)` over the
modelled repertoire: decompose, reorder canonically, recompose. -/
def nfc (t : List Nat) : List Nat :=
  nfcCompose (ccOrd (decompose t))

/-- Python `str.translate` with a table mapping code points to
replacement strings (an empty replacement deletes the character). -/
def pyTranslate (tbl : List (Nat × List Nat)) (t : List Nat) : List Nat :=
  t.flatMap fun c => (assocLookup c tbl).getD [c]

/-- The translation table of `normalize_text_basic` (lines 81-91):
NBSP and narrow NBSP to space, BOM-as-character / zero-width space /
ZWNJ / ZWJ / word joiner / soft hyphen removed, non-breaking hyphen to
ASCII hyphen. -/
def trBasic : List (Nat × List Nat) :=
  [(0x00A0, [0x20]), (0x202F, [0x20]), (0xFEFF, []), (0x200B, []),
   (0x200C, []), (0x200D, []), (0x2060, []), (0x00AD, []), (0x2011, [0x2D])]

/-- The translation table of `normalize_text_ascii_punct` (lines 101-106):
typographic quotes, dashes and ellipsis to ASCII. -/
def trAscii : List (Nat × List Nat) :=
  [(0x2018, [0x27]), (0x2019, [0x27]), (0x201C, [0x22]), (0x201D, [0x22]),
   (0x2013, [0x2D]), (0x2014, [0x2D]), (0x2026, [0x2E, 0x2E, 0x2E])]

/-- `normalize_text_basic` (lines 78-92): NFC composition, then the basic
translation table. -/
def normalize_text_basic (text : List Nat) : List Nat :=
  pyTranslate trBasic (nfc text)

/-- `normalize_text_ascii_punct` (lines 99-107): the basic normalization,
then the ASCII-punctuation table. -/
def normalize_text_ascii_punct (text : List Nat) : List Nat :=
  pyTranslate trAscii (normalize_text_basic text)

/-- `apply_normalization` (lines 113-119): `none` is the identity,
`ascii` the aggressive variant, anything else the basic variant. -/
def apply_normalization (text : List Nat) (mode : String) : List Nat :=
  if mode = "none" then text
  else if mode = "ascii" then normalize_text_ascii_punct text
  else normalize_text_basic text

/-- A code point is NFC-inert with respect to the modelled tables: no
canonical decomposition and combining class 0 there.  This is a
model-internal notion (the tables are partial, so it over-approximates
real NFC-inertness); sound statements about the program quantify over
`inertRepertoire` below instead. -/
def nfcInert (c : Nat) : Bool :=
  (assocLookup c decompList).isNone && ccc c == 0

/-- Every code point of the text is table-inert (model-internal). -/
def allInert (t : List Nat) : Bool :=
  t.all nfcInert

/-- The certified NFC-inert repertoire: ASCII plus the exact characters
the two translation tables act on.  In the Unicode character database
every one of these code points has combining class 0, no canonical
decomposition, and never occurs as the second element of a primary
composite (those second elements are combining marks or Hangul jamo), so
real NFC leaves any text over this repertoire unchanged — and the
modelled tables agree with the database on all of them. -/
def inertRepertoire (c : Nat) : Bool :=
  c < 0x80 ||
    [0xA0, 0x202F, 0xFEFF, 0x200B, 0x200C, 0x200D, 0x2060, 0xAD, 0x2011,
     0x2018, 0x2019, 0x201C, 0x201D, 0x2013, 0x2014, 0x2026].contains c

/-! ## Language-specific cleaner (`clean_code`) -/

/-- Python whitespace: the characters stripped by `str.lstrip()`
(`str.isspace` is true exactly on these code points). -/
def isPySpace (c : Nat) : Bool :=
  (0x09 ≤ c && c ≤ 0x0D) || (0x1C ≤ c && c ≤ 0x1F) || c == 0x20 || c == 0x85 ||
  c == 0xA0 || c == 0x1680 || (0x2000 ≤ c && c ≤ 0x200A) || c == 0x2028 ||
  c == 0x2029 || c == 0x202F || c == 0x205F || c == 0x3000

/-- `s.lstrip()`: drop leading Python whitespace. -/
def lstripPy (l : List Nat) : List Nat :=
  l.dropWhile isPySpace

/-- `s.lstrip("﻿")`: drop all leading BOM-artifact characters. -/
def lstripBom (l : List Nat) : List Nat :=
  l.dropWhile (· == 0xFEFF)

/-- The code points of the literal `"using "` (the token plus one space). -/
def usingTok : List Nat :=
  [0x75, 0x73, 0x69, 0x6E, 0x67, 0x20]

/-- The code points of the literal `"namespace"`. -/
def nsTok : List Nat :=
  [0x6E, 0x61, 0x6D, 0x65, 0x73, 0x70, 0x61, 0x63, 0x65]

/-- Line 150: `ln.lstrip("﻿").lstrip().startswith("using ")`. -/
def isUsingLine (ln : List Nat) : Bool :=
  startsWithCp usingTok (lstripPy (lstripBom ln))

/-- Line 152: `l.lstrip().startswith("namespace")`. -/
def isNsLine (ln : List Nat) : Bool :=
  startsWithCp nsTok (lstripPy ln)

/-- `text.replace("\r\n", "\n")`: left-to-right, non-overlapping. -/
def replaceCrLf : List Nat → List Nat
  | 13 :: 10 :: rest => 10 :: replaceCrLf rest
  | c :: rest => c :: replaceCrLf rest
  | [] => []

/-- `text.replace("\r", "\n")`. -/
def replaceCr (l : List Nat) : List Nat :=
  l.map fun c => if c == 13 then 10 else c

/-- `text.split("\n")`: always at least one (possibly empty) segment. -/
def splitNl : List Nat → List (List Nat)
  | [] => [[]]
  | 10 :: rest => [] :: splitNl rest
  | c :: rest =>
    match splitNl rest with
    | [] => [[c]]
    | l :: ls => (c :: l) :: ls

/-- `"\n".join(lines)`. -/
def joinNl : List (List Nat) → List Nat
  | [] => []
  | [l] => l
  | l :: ls => l ++ 10 :: joinNl ls

/-- Lines 156-158 and 162-163: append a newline unless one is already
there (`if not cleaned.endswith("\n"): cleaned += "\n"`). -/
def ensureNl (l : List Nat) : List Nat :=
  if l.getLast? == some 10 then l else l ++ [10]

/-- The generator expression
`next((i for i, l in enumerate(filtered_lines) if l.lstrip().startswith("namespace")), None)`
of line 152: index of the first namespace line, if any. -/
def firstNsIdx : List (List Nat) → Option Nat
  | [] => none
  | ln :: rest => if isNsLine ln then some 0 else (firstNsIdx rest).map (· + 1)

/-- The `.cs` branch of `clean_code` (lines 147-159): drop `using` lines,
drop everything before the first `namespace` line (if one exists), rejoin
and ensure a trailing newline. -/
def cleanCs (text : List Nat) : List Nat :=
  let lines := splitNl text
  let filtered := lines.filter fun ln => !(isUsingLine ln)
  let filtered2 := match firstNsIdx filtered with
    | some i => filtered.drop i
    | none => filtered
  ensureNl (joinNl filtered2)

/-- Python `str.lower()` on one character, modelled on the ASCII and
Latin-1 uppercase ranges (the extensions and directory names the program
compares are drawn from these). -/
def pyLowerChar (c : Char) : Char :=
  if 0x41 ≤ c.toNat && c.toNat ≤ 0x5A then Char.ofNat (c.toNat + 32)
  else if 0xC0 ≤ c.toNat && c.toNat ≤ 0xDE && c.toNat != 0xD7 then Char.ofNat (c.toNat + 32)
  else c

/-- Python `str.lower()` on a string. -/
def pyLowerStr (s : String) : String :=
  ⟨s.data.map pyLowerChar⟩

/-- Lines 147-164 of `clean_code`, applied to the decoded, normalized,
newline-normalized text: the `.cs` cleaning for the recognized kind
(extension lower-cases to `".cs"`), otherwise the text with exactly the
trailing-newline guarantee applied. -/
def cleanCodeOnText (text : List Nat) (extension : String) : List Nat :=
  if pyLowerStr extension = ".cs" then cleanCs text else ensureNl text

/-- `clean_code` (lines 128-164): robust read (`none` on a read error,
mirroring the `except` that returns `None`), normalization, newline
normalization to LF, then the per-kind cleaning. -/
def clean_code (content : Option (List Nat)) (extension : String)
    (normalize_mode : String) : Option (List Nat) :=
  match read_text_robust content with
  | .error _ => none
  | .ok (text, _enc) =>
    some (cleanCodeOnText (replaceCr (replaceCrLf (apply_normalization text normalize_mode)))
      extension)

/-- The cleaner rule as the specification words it, on the list of lines:
drop every line whose content — after stripping a possible leading
byte-order-mark artifact and leading whitespace — starts with the
token `"using "` marking an import statement; find the first remaining line whose
stripped content starts with `"namespace"`; discard all lines strictly
before it; if there is no such line, keep all filtered lines. -/
def specCsLines (lines : List (List Nat)) : List (List Nat) :=
  let kept := lines.filter fun ln => !(isUsingLine ln)
  match kept.findIdx? isNsLine with
  | some i => kept.drop i
  | none => kept

/-! ## Tree walker / aggregator (`summarize_project_code`)

The filesystem is a finite tree.  `os.walk(base)` with top-down pruning
of `dirs[:]` visits the files of the base directory first (in the order the
storage API lists them) and then recurses into each kept subdirectory in
listing order; the listing order is part of the tree value. -/

mutual
/-- A directory: its subdirectories and its files (name, byte content);
`none` content models a file whose `open` raises. -/
inductive FSDir : Type where
  | mk : FSForest → List (String × Option (List Nat)) → FSDir

/-- The ordered list of named subdirectories of a directory. -/
inductive FSForest : Type where
  | nil : FSForest
  | cons : String → FSDir → FSForest → FSForest
end

/-- Lines 181-187: the built-in excluded directory names (lower-cased). -/
def excludeDirsBase : List String :=
  ["bin", "obj", "resources", "assets", "apim", "apiops", "management-api",
   "attachments", "employee-masterdata", "example-integration", "configurations",
   "payroll-mock", "functions.policymanagement.unittests",
   "functions.tenantmanagement.unittests", "migrations",
   "reporting", "decorator", "client", ".git", ".vscode", ".idea", ".vs", "venv",
   ".venv", "node_modules", ".node_modules", ".angular"]

/-- Line 190: the auto-generated-project name suffixes. -/
def autoGenSuffixes : List String :=
  [".droid", ".winui", ".unittests", ".tests"]

/-- Python `str.strip()`: drop leading and trailing whitespace. -/
def pyStrip (s : String) : String :=
  ⟨(((s.data.dropWhile fun c => isPySpace c.toNat).reverse.dropWhile
      fun c => isPySpace c.toNat)).reverse⟩

/-- Lines 188-189: the exclusion set after merging the caller-supplied
extra names (stripped, lower-cased, empty entries dropped). -/
def excludeDirs (extra : List String) : List String :=
  excludeDirsBase ++
    (extra.filter fun d => pyStrip d ≠ "").map fun d => pyLowerStr (pyStrip d)

/-- Python `s.endswith(suf)`. -/
def endsWithStr (suf s : String) : Bool :=
  suf.data.length ≤ s.data.length &&
    s.data.drop (s.data.length - suf.data.length) == suf.data

/-- Lines 195-198: a directory is pruned when its lower-cased name is in
the exclusion set or ends with an auto-generated-project suffix. -/
def dirExcluded (excl : List String) (d : String) : Bool :=
  excl.contains (pyLowerStr d) ||
    autoGenSuffixes.any fun suf => endsWithStr suf (pyLowerStr d)

/-- One output fragment: the directory components of the file (relative
to the base), the file name, the extension it was matched by, and the
cleaned body. -/
structure Frag : Type where
  dirs : List String
  name : String
  ext : String
  body : List Nat
deriving DecidableEq

/-- Forward-slash-joined relative path (`os.path.relpath(...).replace(os.sep, "/")`). -/
def joinSlash : List String → String
  | [] => ""
  | [p] => p
  | p :: ps => p ++ "/" ++ joinSlash ps

/-- The code points of a Lean string (used for headers and paths). -/
def strToCp (s : String) : List Nat :=
  s.data.map Char.toNat

/-- Lines 211-212: `f"{header}{cleaned_code}\n"` with
`header = f"=============\n{rel_path}\n"`. -/
def renderFrag (f : Frag) : List Nat :=
  strToCp "=============\n" ++ strToCp (joinSlash (f.dirs ++ [f.name])) ++ [10] ++
    f.body ++ [10]

/-- Lines 202-213, the inner `for ext in extensions` loop for one file:
the first extension whose lower-cased form is a suffix of the lower-cased
file name is tried; a `None` from `clean_code` logs and `continue`s to
the next extension, a success appends one fragment and `break`s. -/
def tryExts (rel : List String) (file : String) (content : Option (List Nat))
    (mode : String) : List String → Option Frag
  | [] => none
  | ext :: rest =>
    if endsWithStr (pyLowerStr ext) (pyLowerStr file) then
      match clean_code content ext mode with
      | none => tryExts rel file content mode rest
      | some body => some ⟨rel, file, ext, body⟩
    else tryExts rel file content mode rest

/-- Line 201, the `for file in files` loop: each file contributes at most
one fragment, in listing order. -/
def filesFrags (rel : List String) (mode : String) (exts : List String) :
    List (String × Option (List Nat)) → List Frag
  | [] => []
  | (name, content) :: rest =>
    (match tryExts rel name content mode exts with
     | some f => [f]
     | none => []) ++ filesFrags rel mode exts rest

mutual
/-- Lines 193-213: the fragments contributed by one directory — its own
files first, then the kept subdirectories in listing order. -/
def dirFrags (exts : List String) (mode : String) (excl : List String)
    (rel : List String) : FSDir → List Frag
  | .mk forest files =>
    filesFrags rel mode exts files ++ forestFrags exts mode excl rel forest

/-- The fragments contributed by a forest of subdirectories: an excluded
directory is pruned with its entire subtree (`dirs[:] = [...]`). -/
def forestFrags (exts : List String) (mode : String) (excl : List String)
    (rel : List String) : FSForest → List Frag
  | .nil => []
  | .cons name d rest =>
    (if dirExcluded excl name then []
     else dirFrags exts mode excl (rel ++ [name]) d) ++
      forestFrags exts mode excl rel rest
end

/-- `summarize_project_code` (lines 172-215): walk, filter, per-file
clean, and concatenate the rendered fragments (`"".join(output_parts)`). -/
def summarize_project_code (base : FSDir) (extensions : List String)
    (normalize_mode : String) (extra_exclude_dirs : List String) : List Nat :=
  (dirFrags extensions normalize_mode (excludeDirs extra_exclude_dirs) [] base).flatMap
    renderFrag

/-- A FileCandidate as the data model of the specification words it: location,
file name, the first matching extension, and the raw content. -/
structure Cand : Type where
  dirs : List String
  name : String
  ext : String
  content : Option (List Nat)
deriving DecidableEq

/-- The first requested extension (in caller-supplied order) whose
lower-cased form is a suffix of the lower-cased file name. -/
def firstMatchExt (exts : List String) (file : String) : Option String :=
  exts.find? fun e => endsWithStr (pyLowerStr e) (pyLowerStr file)

/-- The candidates contributed by the files of one directory. -/
def filesCands (rel : List String) (exts : List String) :
    List (String × Option (List Nat)) → List Cand
  | [] => []
  | (name, content) :: rest =>
    (match firstMatchExt exts name with
     | some e => [⟨rel, name, e, content⟩]
     | none => []) ++ filesCands rel exts rest

mutual
/-- The candidate sequence of one directory, in traversal order. -/
def dirCands (exts : List String) (excl : List String) (rel : List String) :
    FSDir → List Cand
  | .mk forest files =>
    filesCands rel exts files ++ forestCands exts excl rel forest

/-- The candidate sequence of a forest of subdirectories. -/
def forestCands (exts : List String) (excl : List String) (rel : List String) :
    FSForest → List Cand
  | .nil => []
  | .cons name d rest =>
    (if dirExcluded excl name then []
     else dirCands exts excl (rel ++ [name]) d) ++
      forestCands exts excl rel rest
end

/-- Processing one candidate: an unreadable file yields no fragment, a
readable one yields the fragment with its cleaned body. -/
def processCand (mode : String) (c : Cand) : Option Frag :=
  match c.content with
  | none => none
  | some bs =>
    match clean_code (some bs) c.ext mode with
    | none => none
    | some body => some ⟨c.dirs, c.name, c.ext, body⟩

/-- Genuine byte content (readable files hold bytes `< 256`). -/
def contentOk : Option (List Nat) → Bool
  | none => true
  | some bs => bytesOk bs

mutual
/-- All file contents in the tree are genuine byte sequences. -/
def dirBytesOk : FSDir → Bool
  | .mk forest files => (files.all fun f => contentOk f.2) && forestBytesOk forest

/-- All file contents in the forest are genuine byte sequences. -/
def forestBytesOk : FSForest → Bool
  | .nil => true
  | .cons _ d rest => dirBytesOk d && forestBytesOk rest
end

/-- Computable lexicographic order on strings by code point (the
alphabetical order used to state sortedness claims). -/
def charListLe : List Char → List Char → Bool
  | [], _ => true
  | _ :: _, [] => false
  | a :: as, b :: bs => a.toNat < b.toNat || (a == b && charListLe as bs)

/-- `a ≤ b` in code-point lexicographic order. -/
def strLe (a b : String) : Bool :=
  charListLe a.data b.data

theorem latin1Decode_total (data : List Nat) (h : bytesOk data = true) :
    latin1Decode data = some data := by
  induction data with
  | nil => rfl
  | cons b rest ih =>
    simp only [bytesOk, List.all_cons, Bool.and_eq_true, decide_eq_true_eq] at h
    have hrest : latin1Decode rest = some rest := ih (by simpa [bytesOk] using h.2)
    simp only [latin1Decode, decodeMap] at hrest ⊢
    rw [hrest]
    simp [latin1Byte, h.1]

/-- The fallback chain always succeeds on genuine byte input, and never by
the `surrogateescape` tier: the latin-1 tier is total. -/
theorem decodeChain_ok (data : List Nat) (h : bytesOk data = true) :
    ∃ t l, decodeChain data = Except.ok (t, l) ∧ l ≠ "utf-8-surrogateescape" := by
  unfold decodeChain
  cases h1 : utf8Decode data with
  | some t => exact ⟨t, "utf-8", rfl, by decide⟩
  | none =>
    cases h2 : utf8SigDecode data with
    | some t => exact ⟨t, "utf-8-sig", rfl, by decide⟩
    | none =>
      cases h3 : (if startsWithCp [0xFF, 0xFE] data || startsWithCp [0xFE, 0xFF] data
                  then utf16Decode data else none) with
      | some t => exact ⟨t, "utf-16", rfl, by decide⟩
      | none =>
        cases h4 : (if startsWithCp [0xFF, 0xFE, 0x00, 0x00] data ||
                       startsWithCp [0x00, 0x00, 0xFE, 0xFF] data
                    then utf32Decode data else none) with
        | some t => exact ⟨t, "utf-32", rfl, by decide⟩
        | none =>
          cases h5 : cp1252Decode data with
          | some t => exact ⟨t, "cp1252", rfl, by decide⟩
          | none =>
            refine ⟨data, "latin-1", ?_, by decide⟩
            rw [latin1Decode_total data h]

/-- C1: for every byte sequence read from a file, `read_text_robust` returns
a `(text, encodingLabel)` pair without raising — every decode failure falls
through to a later tier — and it raises (a `RuntimeError`) if and only if
opening/reading the file itself fails (modelled by `none` content). -/
theorem read_text_robust_ok_iff_readable (content : Option (List Nat))
    (h : content.all bytesOk = true) :
    exceptOk (read_text_robust content) = content.isSome := by
  cases content with
  | none => rfl
  | some data =>
    obtain ⟨t, l, hok, -⟩ := decodeChain_ok data (by simpa [Option.all] using h)
    simp [read_text_robust, hok, exceptOk]

theorem read_text_robust_ok_iff_readable_witness :
    exceptOk (read_text_robust (some [0x81])) = true :=
  (read_text_robust_ok_iff_readable (some [0x81]) (by decide)).trans rfl

/-- C10: the final `surrogateescape` fallback tier of `read_text_robust` is
unreachable: the latin-1 tier decodes every byte sequence (it is total on
bytes, unlike cp1252 whose undefined bytes such as `0x81` make it fail), so
the function never returns the label `"utf-8-surrogateescape"` and the
`RuntimeError` branch after it is dead for every byte input. -/
theorem decodeChain_never_surrogateescape (data : List Nat)
    (h : bytesOk data = true) :
    ∃ t l, decodeChain data = Except.ok (t, l) ∧ l ≠ "utf-8-surrogateescape" :=
  decodeChain_ok data h

theorem decodeChain_never_surrogateescape_witness :
    ∃ t l, decodeChain [0x81] = Except.ok (t, l) ∧ l ≠ "utf-8-surrogateescape" :=
  decodeChain_never_surrogateescape [0x81] (by decide)

/-- C4 counterexample: the byte sequence `FF FE 00 00 41 00 00 00` begins
with the UTF-32 little-endian byte-order-mark and is not valid (strict)
UTF-8, with or without BOM — yet the chain decodes it as UTF-16 (label
`"utf-16"`), because the UTF-16 BOM check `data.startswith(b"\xff\xfe")`
fires first and succeeds. The claim `label = "utf-32"` is false. -/
theorem utf32_bom_claim_counterexample :
    utf8Decode [0xFF, 0xFE, 0x00, 0x00, 0x41, 0x00, 0x00, 0x00] = none ∧
    utf8SigDecode [0xFF, 0xFE, 0x00, 0x00, 0x41, 0x00, 0x00, 0x00] = none ∧
    startsWithCp [0xFF, 0xFE, 0x00, 0x00]
      [0xFF, 0xFE, 0x00, 0x00, 0x41, 0x00, 0x00, 0x00] = true ∧
    decodeChain [0xFF, 0xFE, 0x00, 0x00, 0x41, 0x00, 0x00, 0x00] =
      Except.ok ([0x00, 0x41, 0x00], "utf-16") :=
  ⟨rfl, rfl, rfl, rfl⟩

/-- C4 amended: only for the UTF-32 *big-endian* byte-order-mark
(`00 00 FE FF`) is the UTF-32 tier reached (such input can never be valid
UTF-8 and does not match the UTF-16 BOM check); if UTF-32 decoding
succeeds, `read_text_robust` returns its text with label `"utf-32"`.
A sequence starting with the little-endian UTF-32 BOM `FF FE 00 00` is
captured by the UTF-16 tier first. -/
theorem decodeChain_utf32_be_bom (data t : List Nat)
    (hbom : startsWithCp [0x00, 0x00, 0xFE, 0xFF] data = true)
    (h32 : utf32Decode data = some t) :
    decodeChain data = Except.ok (t, "utf-32") := by
  obtain ⟨rest, rfl⟩ : ∃ rest, data = 0x00 :: 0x00 :: 0xFE :: 0xFF :: rest := by
    rcases data with _ | ⟨b1, _ | ⟨b2, _ | ⟨b3, _ | ⟨b4, rest⟩⟩⟩⟩ <;>
      simp [startsWithCp] at hbom
    obtain ⟨h1, h2, h3, h4⟩ := hbom
    subst h1; subst h2; subst h3; subst h4
    exact ⟨rest, rfl⟩
  have h8 : utf8Decode (0x00 :: 0x00 :: 0xFE :: 0xFF :: rest) = none := by
    simp [utf8Decode, utf8Run]
  have hsig : utf8SigDecode (0x00 :: 0x00 :: 0xFE :: 0xFF :: rest) = none := by
    simp only [utf8SigDecode, startsWithCp]
    simpa using h8
  unfold decodeChain
  rw [h8, hsig]
  simp [startsWithCp, h32]

theorem decodeChain_utf32_be_bom_witness :
    decodeChain [0x00, 0x00, 0xFE, 0xFF, 0x00, 0x00, 0x00, 0x41] =
      Except.ok ([0x41], "utf-32") :=
  decodeChain_utf32_be_bom [0x00, 0x00, 0xFE, 0xFF, 0x00, 0x00, 0x00, 0x41]
    [0x41] (by decide) rfl

theorem assocLookup_mem {α β : Type} [DecidableEq α] {k : α} {v : β} :
    ∀ {l : List (α × β)}, assocLookup k l = some v → (k, v) ∈ l := by
  intro l
  induction l with
  | nil => intro h; simp [assocLookup] at h
  | cons p rest ih =>
    intro h
    obtain ⟨k', v'⟩ := p
    simp only [assocLookup] at h
    split at h
    · injection h with hv
      subst hv
      rename_i hk
      subst hk
      exact List.mem_cons_self _ _
    · exact List.mem_cons_of_mem _ (ih h)

theorem allInert_cons {c : Nat} {t : List Nat} :
    allInert (c :: t) = true ↔ nfcInert c = true ∧ allInert t = true := by
  simp [allInert]

theorem nfcInert_ccc {c : Nat} (h : nfcInert c = true) : ccc c = 0 := by
  simp only [nfcInert, Bool.and_eq_true, beq_iff_eq] at h
  exact h.2

theorem nfcInert_decomp {c : Nat} (h : nfcInert c = true) :
    assocLookup c decompList = none := by
  simp only [nfcInert, Bool.and_eq_true, Option.isNone_iff_eq_none] at h
  exact h.1

theorem decompose_inert : ∀ {t : List Nat}, allInert t = true → decompose t = t := by
  intro t
  induction t with
  | nil => intro _; rfl
  | cons c rest ih =>
    intro h
    rw [allInert_cons] at h
    have hrest := ih h.2
    simp only [decompose] at hrest
    simp [decompose, canonDecomp, nfcInert_decomp h.1, hrest]

theorem ccOrd_inert : ∀ {t : List Nat}, allInert t = true → ccOrd t = t := by
  intro t
  induction t with
  | nil => intro _; rfl
  | cons c rest ih =>
    intro h
    rw [allInert_cons] at h
    rw [ccOrd, ih h.2]
    cases rest with
    | nil => rfl
    | cons d rest2 =>
      have hd : ccc d = 0 := nfcInert_ccc (allInert_cons.mp h.2).1
      simp [ccIns, hd]

theorem compLookup_eq_none (L c : Nat) (h : ccc c = 0) :
    assocLookup (L, c) compList = none := by
  have h1 : c ≠ 0x300 := fun hc => by subst hc; simp [ccc, cccList, assocLookup] at h
  have h2 : c ≠ 0x301 := fun hc => by subst hc; simp [ccc, cccList, assocLookup] at h
  have h3 : c ≠ 0x303 := fun hc => by subst hc; simp [ccc, cccList, assocLookup] at h
  have h4 : c ≠ 0x308 := fun hc => by subst hc; simp [ccc, cccList, assocLookup] at h
  simp [compList, assocLookup, Prod.ext_iff, h1, h2, h3, h4]

theorem composeRun_inert :
    ∀ {t : List Nat}, allInert t = true → ∀ L, composeRun L [] t = L :: t := by
  intro t
  induction t with
  | nil => intro _ L; rfl
  | cons c rest ih =>
    intro h L
    rw [allInert_cons] at h
    have hc0 : ccc c = 0 := nfcInert_ccc h.1
    rw [composeRun]
    simp [compLookup_eq_none L c hc0, hc0, ih h.2]

theorem nfc_inert {t : List Nat} (h : allInert t = true) : nfc t = t := by
  rw [nfc, decompose_inert h, ccOrd_inert h]
  cases t with
  | nil => rfl
  | cons c rest =>
    rw [allInert_cons] at h
    rw [nfcCompose, composeRun_inert h.2]

theorem pyTranslate_cons (tbl : List (Nat × List Nat)) (c : Nat) (t : List Nat) :
    pyTranslate tbl (c :: t) = (assocLookup c tbl).getD [c] ++ pyTranslate tbl t := by
  simp [pyTranslate]

theorem pyTranslate_inert {tbl : List (Nat × List Nat)}
    (hout : ∀ p ∈ tbl, p.2.all nfcInert = true) :
    ∀ {t : List Nat}, allInert t = true → allInert (pyTranslate tbl t) = true := by
  intro t
  induction t with
  | nil => intro _; rfl
  | cons c rest ih =>
    intro h
    rw [allInert_cons] at h
    have h2 := ih h.2
    rw [pyTranslate_cons]
    cases hl : assocLookup c tbl with
    | some out =>
      have hOut : out.all nfcInert = true := hout _ (assocLookup_mem hl)
      simp only [allInert, List.all_append, Bool.and_eq_true, Option.getD_some] at h2 hOut ⊢
      exact ⟨hOut, h2⟩
    | none =>
      simp only [allInert, List.all_append, Bool.and_eq_true, Option.getD_none] at h2 ⊢
      exact ⟨by simp [h.1], h2⟩

theorem pyTranslate_self_free {tbl : List (Nat × List Nat)}
    (hout : ∀ p ∈ tbl, ∀ d ∈ p.2, assocLookup d tbl = none) :
    ∀ t : List Nat, ∀ c ∈ pyTranslate tbl t, assocLookup c tbl = none := by
  intro t
  induction t with
  | nil => intro c hc; simp [pyTranslate] at hc
  | cons a rest ih =>
    intro c hc
    rw [pyTranslate_cons] at hc
    rcases List.mem_append.mp hc with hc | hc
    · cases hl : assocLookup a tbl with
      | some out =>
        rw [hl] at hc
        exact hout _ (assocLookup_mem hl) c (by simpa using hc)
      | none =>
        rw [hl] at hc
        simp at hc
        subst hc
        exact hl
    · exact ih c hc

theorem pyTranslate_pres_free {tblA tblB : List (Nat × List Nat)}
    (hout : ∀ p ∈ tblA, ∀ d ∈ p.2, assocLookup d tblB = none) :
    ∀ t : List Nat, (∀ c ∈ t, assocLookup c tblB = none) →
      ∀ c ∈ pyTranslate tblA t, assocLookup c tblB = none := by
  intro t
  induction t with
  | nil => intro _ c hc; simp [pyTranslate] at hc
  | cons a rest ih =>
    intro ht c hc
    rw [pyTranslate_cons] at hc
    rcases List.mem_append.mp hc with hc | hc
    · cases hl : assocLookup a tblA with
      | some out =>
        rw [hl] at hc
        exact hout _ (assocLookup_mem hl) c (by simpa using hc)
      | none =>
        rw [hl] at hc
        simp at hc
        subst hc
        exact ht c (List.mem_cons_self _ _)
    · exact ih (fun d hd => ht d (List.mem_cons_of_mem _ hd)) c hc

theorem pyTranslate_id {tbl : List (Nat × List Nat)} :
    ∀ {t : List Nat}, (∀ c ∈ t, assocLookup c tbl = none) → pyTranslate tbl t = t := by
  intro t
  induction t with
  | nil => intro _; rfl
  | cons c rest ih =>
    intro h
    rw [pyTranslate_cons, h c (List.mem_cons_self _ _)]
    simp [ih fun d hd => h d (List.mem_cons_of_mem _ hd)]

/-- C3 counterexample: the normalizer is not idempotent at level `basic`
(nor at `ascii`).  On the text `a ZWJ U+0301` (a letter, a zero-width
joiner, a combining acute), the first application removes the zero-width
joiner after NFC leaves the text unchanged (the joiner blocks
composition), yielding `a U+0301`; a second application re-runs NFC,
which now composes the pair into the single code point `á` (`0xE1`). -/
theorem normalization_idempotence_counterexample :
    apply_normalization (apply_normalization [0x61, 0x200D, 0x301] "basic") "basic" ≠
      apply_normalization [0x61, 0x200D, 0x301] "basic" ∧
    apply_normalization (apply_normalization [0x61, 0x200D, 0x301] "ascii") "ascii" ≠
      apply_normalization [0x61, 0x200D, 0x301] "ascii" := by
  decide

theorem assocLookup_eq_none {α β : Type} [DecidableEq α] {c : α} :
    ∀ {l : List (α × β)}, (∀ p ∈ l, c ≠ p.1) → assocLookup c l = none := by
  intro l
  induction l with
  | nil => intro _; rfl
  | cons p rest ih =>
    intro h
    obtain ⟨k, v⟩ := p
    rw [assocLookup, if_neg (h (k, v) (List.mem_cons_self _ _))]
    exact ih fun q hq => h q (List.mem_cons_of_mem _ hq)

theorem inertRepertoire_inert (c : Nat) (h : inertRepertoire c = true) :
    nfcInert c = true := by
  rw [inertRepertoire, Bool.or_eq_true] at h
  rcases h with h | h
  · rw [decide_eq_true_eq] at h
    have hd : ∀ p ∈ decompList, 0x80 ≤ p.1 := by decide
    have hcc : ∀ p ∈ cccList, 0x80 ≤ p.1 := by decide
    have h1 : assocLookup c decompList = none :=
      assocLookup_eq_none fun p hp => by have := hd p hp; omega
    have h2 : ccc c = 0 := by
      have hn : assocLookup c cccList = none :=
        assocLookup_eq_none fun p hp => by have := hcc p hp; omega
      simp [ccc, hn]
    simp [nfcInert, h1, h2]
  · have hm : c ∈ [0xA0, 0x202F, 0xFEFF, 0x200B, 0x200C, 0x200D, 0x2060, 0xAD,
        0x2011, 0x2018, 0x2019, 0x201C, 0x201D, 0x2013, 0x2014, 0x2026] := by
      simpa using h
    fin_cases hm <;> decide

/-- C3 amended: `apply_normalization` at levels `basic` and `ascii` is
idempotent on every text drawn from the certified NFC-inert repertoire —
ASCII plus the very characters the substitution tables act on (NBSP,
narrow NBSP, BOM-as-character, zero-width space/non-joiner/joiner, word
joiner, soft hyphen, non-breaking hyphen, typographic quotes, en/em
dash, ellipsis), each with combining class 0, no canonical decomposition
and no primary composite.  In general a second application can differ
from the first: removing a character (zero-width or soft hyphen) can
bring a combining mark next to a starter it then composes with, so
idempotence fails exactly when the once-normalized text is no longer
NFC-normal. -/
theorem apply_normalization_idempotent_inert (t : List Nat) (mode : String)
    (hmode : mode = "basic" ∨ mode = "ascii")
    (hrep : t.all inertRepertoire = true) :
    apply_normalization (apply_normalization t mode) mode =
      apply_normalization t mode := by
  have ht : allInert t = true :=
    List.all_eq_true.mpr fun c hc =>
      inertRepertoire_inert c (List.all_eq_true.mp hrep c hc)
  have hBout : ∀ p ∈ trBasic, p.2.all nfcInert = true := by decide
  have hAout : ∀ p ∈ trAscii, p.2.all nfcInert = true := by decide
  have hBB : ∀ p ∈ trBasic, ∀ d ∈ p.2, assocLookup d trBasic = none := by decide
  have hAA : ∀ p ∈ trAscii, ∀ d ∈ p.2, assocLookup d trAscii = none := by decide
  have hAB : ∀ p ∈ trAscii, ∀ d ∈ p.2, assocLookup d trBasic = none := by decide
  rcases hmode with rfl | rfl
  · have e : ∀ s : List Nat, apply_normalization s "basic" = normalize_text_basic s :=
      fun s => rfl
    rw [e, e]
    have hb : normalize_text_basic t = pyTranslate trBasic t := by
      rw [normalize_text_basic, nfc_inert ht]
    rw [hb]
    have hi : allInert (pyTranslate trBasic t) = true := pyTranslate_inert hBout ht
    rw [normalize_text_basic, nfc_inert hi]
    exact pyTranslate_id (pyTranslate_self_free hBB t)
  · have e : ∀ s : List Nat,
        apply_normalization s "ascii" = normalize_text_ascii_punct s := fun s => rfl
    rw [e, e]
    have hb : normalize_text_ascii_punct t = pyTranslate trAscii (pyTranslate trBasic t) := by
      rw [normalize_text_ascii_punct, normalize_text_basic, nfc_inert ht]
    rw [hb]
    have hyInert : allInert (pyTranslate trAscii (pyTranslate trBasic t)) = true :=
      pyTranslate_inert hAout (pyTranslate_inert hBout ht)
    rw [normalize_text_ascii_punct, normalize_text_basic, nfc_inert hyInert]
    have hyBfree : ∀ c ∈ pyTranslate trAscii (pyTranslate trBasic t),
        assocLookup c trBasic = none :=
      pyTranslate_pres_free hAB _ (pyTranslate_self_free hBB t)
    rw [pyTranslate_id hyBfree]
    exact pyTranslate_id (pyTranslate_self_free hAA _)

theorem apply_normalization_idempotent_inert_witness :
    apply_normalization (apply_normalization [0x68, 0x69, 0xA0, 0x2026] "ascii") "ascii" =
      apply_normalization [0x68, 0x69, 0xA0, 0x2026] "ascii" :=
  apply_normalization_idempotent_inert [0x68, 0x69, 0xA0, 0x2026] "ascii"
    (Or.inr rfl) (by decide)

theorem firstNsIdx_eq_findIdx :
    ∀ l : List (List Nat), firstNsIdx l = l.findIdx? isNsLine := by
  intro l
  induction l with
  | nil => rfl
  | cons ln rest ih => simp [firstNsIdx, List.findIdx?_cons, ih]

/-- C2: for the recognized kind (extension lower-casing to `".cs"`), the
cleaner drops every line whose content — after stripping leading BOM
artifacts and leading whitespace — starts with `"using "`, then discards
all lines strictly before the first remaining line whose stripped content
starts with `"namespace"` (keeping all filtered lines when there is no
such line), rejoins with newlines and guarantees a trailing newline:
exactly the line-level rule `specCsLines` worded by the specification. -/
theorem clean_code_cs_spec (extension : String) (text : List Nat)
    (h : pyLowerStr extension = ".cs") :
    cleanCodeOnText text extension = ensureNl (joinNl (specCsLines (splitNl text))) := by
  simp only [cleanCodeOnText, if_pos h, cleanCs, specCsLines, firstNsIdx_eq_findIdx]

/-- Witness at the instance named by the claim: three lines of import
statements, a blank line,
then a declaration line — only the declaration line onward is kept
(`"using A;\nusing B;\nusing C;\n\nnamespace X {"` cleans to
`"namespace X {\n"`), with a case-insensitive extension `".CS"`. -/
theorem clean_code_cs_spec_witness :
    cleanCodeOnText
      [117, 115, 105, 110, 103, 32, 65, 59, 10, 117, 115, 105, 110, 103, 32, 66, 59, 10,
       117, 115, 105, 110, 103, 32, 67, 59, 10, 10,
       110, 97, 109, 101, 115, 112, 97, 99, 101, 32, 88, 32, 123] ".CS" =
      [110, 97, 109, 101, 115, 112, 97, 99, 101, 32, 88, 32, 123, 10] :=
  (clean_code_cs_spec ".CS"
    [117, 115, 105, 110, 103, 32, 65, 59, 10, 117, 115, 105, 110, 103, 32, 66, 59, 10,
     117, 115, 105, 110, 103, 32, 67, 59, 10, 10,
     110, 97, 109, 101, 115, 112, 97, 99, 101, 32, 88, 32, 123] (by decide)).trans
    (by decide)

theorem ensureNl_getLast (l : List Nat) : (ensureNl l).getLast? = some 10 := by
  rw [ensureNl]
  split
  · rename_i h
    exact beq_iff_eq.mp h
  · simp

/-- C5 amended: for every readable input and every extension, the string
returned by `clean_code` ends with a newline: a newline is appended
exactly when one is missing; existing trailing newlines are preserved, so
the guarantee is "at least one", not "exactly one". -/
theorem clean_code_ends_with_newline (content : Option (List Nat))
    (extension normalize_mode : String) (out : List Nat)
    (h : clean_code content extension normalize_mode = some out) :
    out.getLast? = some 10 := by
  rw [clean_code] at h
  cases hr : read_text_robust content with
  | error e => rw [hr] at h; simp at h
  | ok te =>
    obtain ⟨text, enc⟩ := te
    rw [hr] at h
    simp only [Option.some.injEq] at h
    subst h
    rw [cleanCodeOnText]
    split
    · rw [cleanCs]
      exact ensureNl_getLast _
    · exact ensureNl_getLast _

theorem clean_code_ends_with_newline_witness :
    ([104, 105, 10] : List Nat).getLast? = some 10 :=
  clean_code_ends_with_newline (some [104, 105]) ".txt" "none" [104, 105, 10] rfl

/-- C5 counterexample: for a non-recognized kind the code returns the
normalized text unchanged whenever it already ends with a newline: on the
text `"hi\n\n"` the result still ends in two newlines, refuting "ends
with exactly one trailing newline" (the second conjunct exhibits the
double newline at the tail). -/
theorem clean_code_exactly_one_newline_counterexample :
    clean_code (some [104, 105, 10, 10]) ".txt" "none" = some [104, 105, 10, 10] ∧
    List.drop 2 [104, 105, 10, 10] = [10, 10] :=
  ⟨rfl, rfl⟩

theorem clean_code_some {bs : List Nat} (h : bytesOk bs = true)
    (ext mode : String) : ∃ body, clean_code (some bs) ext mode = some body := by
  obtain ⟨t, l, hok, -⟩ := decodeChain_ok bs h
  exact ⟨cleanCodeOnText (replaceCr (replaceCrLf (apply_normalization t mode))) ext,
    by rw [clean_code, show read_text_robust (some bs) = Except.ok (t, l) from hok]⟩

theorem tryExts_content_none (rel : List String) (file : String) (mode : String) :
    ∀ exts : List String, tryExts rel file none mode exts = none := by
  intro exts
  induction exts with
  | nil => rfl
  | cons ext rest ih =>
    simp only [tryExts, show ∀ e, clean_code none e mode = none from fun _ => rfl]
    split <;> exact ih

theorem tryExts_spec (rel : List String) (file : String) (bs : List Nat)
    (mode : String) (hbs : bytesOk bs = true) :
    ∀ exts : List String,
      (firstMatchExt exts file = none → tryExts rel file (some bs) mode exts = none) ∧
      (∀ e, firstMatchExt exts file = some e →
        ∃ body, clean_code (some bs) e mode = some body ∧
          tryExts rel file (some bs) mode exts = some ⟨rel, file, e, body⟩) := by
  intro exts
  induction exts with
  | nil =>
    refine ⟨fun _ => rfl, fun e he => ?_⟩
    simp [firstMatchExt] at he
  | cons ext rest ih =>
    cases hm : endsWithStr (pyLowerStr ext) (pyLowerStr file) with
    | true =>
      have hf : firstMatchExt (ext :: rest) file = some ext := by
        simp [firstMatchExt, List.find?_cons, hm]
      refine ⟨fun hn => ?_, fun e he => ?_⟩
      · rw [hf] at hn
        cases hn
      · rw [hf] at he
        injection he with he
        subst he
        obtain ⟨body, hb⟩ := clean_code_some hbs ext mode
        exact ⟨body, hb, by simp [tryExts, hm, hb]⟩
    | false =>
      have hf : firstMatchExt (ext :: rest) file = firstMatchExt rest file := by
        simp [firstMatchExt, List.find?_cons, hm]
      have ht : tryExts rel file (some bs) mode (ext :: rest) =
          tryExts rel file (some bs) mode rest := by
        simp [tryExts, hm]
      exact ⟨fun hn => ht.trans (ih.1 (hf ▸ hn)),
        fun e he => by rw [ht]; exact ih.2 e (hf ▸ he)⟩

theorem filesFrags_eq (rel : List String) (mode : String) (exts : List String) :
    ∀ files : List (String × Option (List Nat)),
      (files.all fun f => contentOk f.2) = true →
      filesFrags rel mode exts files =
        (filesCands rel exts files).filterMap (processCand mode) := by
  intro files
  induction files with
  | nil => intro _; rfl
  | cons f rest ih =>
    intro h
    obtain ⟨name, content⟩ := f
    simp only [List.all_cons, Bool.and_eq_true] at h
    rw [filesFrags, filesCands, List.filterMap_append]
    cases content with
    | none =>
      rw [tryExts_content_none]
      cases hm : firstMatchExt exts name with
      | none => simp [ih h.2]
      | some e => simp [processCand, ih h.2]
    | some bs =>
      have hbs : bytesOk bs = true := h.1
      cases hm : firstMatchExt exts name with
      | none =>
        rw [(tryExts_spec rel name bs mode hbs exts).1 hm]
        simp [ih h.2]
      | some e =>
        obtain ⟨body, hb, ht⟩ := (tryExts_spec rel name bs mode hbs exts).2 e hm
        rw [ht]
        simp [processCand, hb, ih h.2]

mutual

theorem dirFrags_eq_cands (exts : List String) (mode : String) (excl : List String) :
    ∀ (rel : List String) (d : FSDir), dirBytesOk d = true →
      dirFrags exts mode excl rel d =
        (dirCands exts excl rel d).filterMap (processCand mode)
  | rel, .mk forest files, h => by
    have hh : (files.all fun f => contentOk f.2) = true ∧ forestBytesOk forest = true := by
      simpa [dirBytesOk, Bool.and_eq_true] using h
    rw [dirFrags, dirCands, List.filterMap_append, filesFrags_eq rel mode exts files hh.1,
      forestFrags_eq_cands exts mode excl rel forest hh.2]

theorem forestFrags_eq_cands (exts : List String) (mode : String) (excl : List String) :
    ∀ (rel : List String) (fo : FSForest), forestBytesOk fo = true →
      forestFrags exts mode excl rel fo =
        (forestCands exts excl rel fo).filterMap (processCand mode)
  | _, .nil, _ => rfl
  | rel, .cons name d rest, h => by
    have hh : dirBytesOk d = true ∧ forestBytesOk rest = true := by
      simpa [forestBytesOk, Bool.and_eq_true] using h
    rw [forestFrags, forestCands, List.filterMap_append,
      forestFrags_eq_cands exts mode excl rel rest hh.2]
    congr 1
    split
    · rfl
    · exact dirFrags_eq_cands exts mode excl (rel ++ [name]) d hh.1

end

theorem filesCands_contentOk (rel : List String) (exts : List String) :
    ∀ files : List (String × Option (List Nat)),
      (files.all fun f => contentOk f.2) = true →
      ∀ c ∈ filesCands rel exts files, contentOk c.content = true := by
  intro files
  induction files with
  | nil => intro _ c hc; cases hc
  | cons f rest ih =>
    intro h c hc
    obtain ⟨name, content⟩ := f
    simp only [List.all_cons, Bool.and_eq_true] at h
    rw [filesCands] at hc
    rcases List.mem_append.mp hc with hc | hc
    · cases hm : firstMatchExt exts name with
      | none => rw [hm] at hc; cases hc
      | some e =>
        rw [hm] at hc
        simp at hc
        subst hc
        exact h.1
    · exact ih h.2 c hc

mutual

theorem dirCands_contentOk (exts : List String) (excl : List String) :
    ∀ (rel : List String) (d : FSDir), dirBytesOk d = true →
      ∀ c ∈ dirCands exts excl rel d, contentOk c.content = true
  | rel, .mk forest files, h, c, hc => by
    have hh : (files.all fun f => contentOk f.2) = true ∧ forestBytesOk forest = true := by
      simpa [dirBytesOk, Bool.and_eq_true] using h
    rw [dirCands] at hc
    rcases List.mem_append.mp hc with hc | hc
    · exact filesCands_contentOk rel exts files hh.1 c hc
    · exact forestCands_contentOk exts excl rel forest hh.2 c hc

theorem forestCands_contentOk (exts : List String) (excl : List String) :
    ∀ (rel : List String) (fo : FSForest), forestBytesOk fo = true →
      ∀ c ∈ forestCands exts excl rel fo, contentOk c.content = true
  | _, .nil, _, c, hc => by cases hc
  | rel, .cons name d rest, h, c, hc => by
    have hh : dirBytesOk d = true ∧ forestBytesOk rest = true := by
      simpa [forestBytesOk, Bool.and_eq_true] using h
    rw [forestCands] at hc
    rcases List.mem_append.mp hc with hc | hc
    · by_cases hx : dirExcluded excl name = true
      · rw [if_pos hx] at hc; cases hc
      · rw [if_neg hx] at hc
        exact dirCands_contentOk exts excl (rel ++ [name]) d hh.1 c hc
    · exact forestCands_contentOk exts excl rel rest hh.2 c hc

end

/-- C8: over a tree of genuine byte contents, the fragment sequence is
exactly the candidate sequence filtered through per-candidate processing
— every candidate yields zero or one fragment — and a candidate is
dropped (zero fragments) precisely when its file content cannot be read
(`none`); a per-file failure only skips that candidate, the remaining
candidates still make up the aggregate. -/
theorem summarize_zero_or_one_fragment (exts : List String) (mode : String)
    (extra : List String) (tree : FSDir) (h : dirBytesOk tree = true) :
    dirFrags exts mode (excludeDirs extra) [] tree =
      (dirCands exts (excludeDirs extra) [] tree).filterMap (processCand mode) ∧
    ∀ c ∈ dirCands exts (excludeDirs extra) [] tree,
      ((processCand mode c).isSome ↔ c.content.isSome) := by
  refine ⟨dirFrags_eq_cands exts mode (excludeDirs extra) [] tree h, ?_⟩
  intro c hc
  have hok : contentOk c.content = true :=
    dirCands_contentOk exts (excludeDirs extra) [] tree h c hc
  cases hco : c.content with
  | none => simp [processCand, hco]
  | some bs =>
    have hbs : bytesOk bs = true := by rw [hco] at hok; exact hok
    obtain ⟨body, hb⟩ := clean_code_some hbs c.ext mode
    simp [processCand, hco, hb]

theorem summarize_zero_or_one_fragment_witness :
    dirFrags [".txt"] "none" (excludeDirs []) []
        (FSDir.mk .nil [("a.txt", some [104]), ("bad.txt", none)]) =
      (dirCands [".txt"] (excludeDirs []) []
        (FSDir.mk .nil [("a.txt", some [104]), ("bad.txt", none)])).filterMap
        (processCand "none") :=
  (summarize_zero_or_one_fragment [".txt"] "none" []
    (FSDir.mk .nil [("a.txt", some [104]), ("bad.txt", none)]) (by decide)).1

theorem tryExts_fields (rel : List String) (file : String)
    (content : Option (List Nat)) (mode : String) :
    ∀ (exts : List String) (f : Frag), tryExts rel file content mode exts = some f →
      f.dirs = rel ∧ f.name = file := by
  intro exts
  induction exts with
  | nil => intro f h; cases h
  | cons ext rest ih =>
    intro f h
    rw [tryExts] at h
    split at h
    · split at h
      · exact ih f h
      · injection h with h
        subst h
        exact ⟨rfl, rfl⟩
    · exact ih f h

theorem filesFrags_fields (rel : List String) (mode : String) (exts : List String) :
    ∀ (files : List (String × Option (List Nat))) (f : Frag),
      f ∈ filesFrags rel mode exts files → f.dirs = rel := by
  intro files
  induction files with
  | nil => intro f hf; cases hf
  | cons p rest ih =>
    intro f hf
    obtain ⟨name, content⟩ := p
    rw [filesFrags] at hf
    rcases List.mem_append.mp hf with hf | hf
    · cases hm : tryExts rel name content mode exts with
      | none => rw [hm] at hf; cases hf
      | some g =>
        rw [hm] at hf
        simp at hf
        subst hf
        exact (tryExts_fields rel name content mode exts f hm).1
    · exact ih f hf

mutual

theorem dirFrags_dirs_free (exts : List String) (mode : String) (excl : List String) :
    ∀ (rel : List String) (d : FSDir) (f : Frag), f ∈ dirFrags exts mode excl rel d →
      ∀ s ∈ f.dirs, s ∈ rel ∨ dirExcluded excl s = false
  | rel, .mk forest files, f, hf, s, hs => by
    rw [dirFrags] at hf
    rcases List.mem_append.mp hf with hf | hf
    · rw [filesFrags_fields rel mode exts files f hf] at hs
      exact Or.inl hs
    · exact forestFrags_dirs_free exts mode excl rel forest f hf s hs

theorem forestFrags_dirs_free (exts : List String) (mode : String) (excl : List String) :
    ∀ (rel : List String) (fo : FSForest) (f : Frag), f ∈ forestFrags exts mode excl rel fo →
      ∀ s ∈ f.dirs, s ∈ rel ∨ dirExcluded excl s = false
  | _, .nil, f, hf, _, _ => by cases hf
  | rel, .cons name d rest, f, hf, s, hs => by
    rw [forestFrags] at hf
    rcases List.mem_append.mp hf with hf | hf
    · by_cases hx : dirExcluded excl name = true
      · rw [if_pos hx] at hf; cases hf
      · rw [if_neg hx] at hf
        rcases dirFrags_dirs_free exts mode excl (rel ++ [name]) d f hf s hs with hmem | hfree
        · rcases List.mem_append.mp hmem with h1 | h1
          · exact Or.inl h1
          · simp at h1
            subst h1
            exact Or.inr (by simpa using hx)
        · exact Or.inr hfree
    · exact forestFrags_dirs_free exts mode excl rel rest f hf s hs

end

/-- C6: no fragment ever comes from inside an excluded directory: every
directory component on the relative path of an emitted fragment fails the
exclusion test (name in the exclusion set, or an auto-generated-project
suffix match, both case-insensitive), at every depth below the base. -/
theorem summarize_excluded_dirs_pruned (exts : List String) (mode : String)
    (extra : List String) (tree : FSDir) (f : Frag)
    (hf : f ∈ dirFrags exts mode (excludeDirs extra) [] tree) :
    ∀ s ∈ f.dirs, dirExcluded (excludeDirs extra) s = false := by
  intro s hs
  rcases dirFrags_dirs_free exts mode (excludeDirs extra) [] tree f hf s hs with h | h
  · exact absurd h (List.not_mem_nil s)
  · exact h

theorem summarize_excluded_dirs_pruned_witness :
    dirExcluded (excludeDirs []) "src" = false :=
  summarize_excluded_dirs_pruned [".cs"] "none" []
    (FSDir.mk
      (FSForest.cons "bin" (FSDir.mk .nil [("x.cs", some [104])])
        (FSForest.cons "src" (FSDir.mk .nil [("y.cs", some [104])]) .nil))
      [])
    ⟨["src"], "y.cs", ".cs", [104, 10]⟩ (by decide) "src" (by decide)

/-- C7: for one file, the inner extension loop produces at most one
fragment; on readable content it yields no fragment exactly when no
requested extension matches, and otherwise exactly one fragment labeled
with the first matching extension in the caller-supplied order, even when
the file name ends with several of the requested extensions. -/
theorem tryExts_first_match (rel : List String) (file : String) (bs : List Nat)
    (mode : String) (exts : List String) (hbs : bytesOk bs = true) :
    (firstMatchExt exts file = none → tryExts rel file (some bs) mode exts = none) ∧
    (∀ e, firstMatchExt exts file = some e →
      ∃ body, clean_code (some bs) e mode = some body ∧
        tryExts rel file (some bs) mode exts = some ⟨rel, file, e, body⟩) :=
  tryExts_spec rel file bs mode hbs exts

/-- Witness: `"a.cs"` matches both requested extensions `"s"` and
`".cs"`; the recorded extension is `"s"`, the first in caller order. -/
theorem tryExts_first_match_witness :
    ∃ body, clean_code (some [104]) "s" "none" = some body ∧
      tryExts [] "a.cs" (some [104]) "none" ["s", ".cs"] =
        some ⟨[], "a.cs", "s", body⟩ :=
  (tryExts_first_match [] "a.cs" [104] "none" ["s", ".cs"] (by decide)).2 "s" (by decide)

/-- C9 counterexample: traversal does not sort: with the storage API
listing `b.txt` before `a.txt`, the fragments come out in exactly that
listing order, not in alphabetical order (`["a.txt", "b.txt"]`). -/
theorem summarize_sorted_counterexample :
    (dirFrags [".txt"] "none" (excludeDirs []) []
        (FSDir.mk .nil [("b.txt", some [120]), ("a.txt", some [121])])).map Frag.name =
      ["b.txt", "a.txt"] ∧
    (["b.txt", "a.txt"] : List String) ≠ ["a.txt", "b.txt"] :=
  ⟨by decide, by decide⟩

theorem filesFrags_names_sublist (rel : List String) (mode : String)
    (exts : List String) :
    ∀ files : List (String × Option (List Nat)),
      ((filesFrags rel mode exts files).map Frag.name).Sublist (files.map Prod.fst) := by
  intro files
  induction files with
  | nil => simp [filesFrags]
  | cons p rest ih =>
    obtain ⟨name, content⟩ := p
    rw [filesFrags]
    cases hm : tryExts rel name content mode exts with
    | some g =>
      have hg : g.name = name := (tryExts_fields rel name content mode exts g hm).2
      simpa [hg] using ih.cons₂ name
    | none => simpa using ih.cons name

/-- C9 amended: the walker emits the file fragments of each directory in the
storage listing order (they form a sublist of the listing); consequently
the per-directory fragment order is alphabetical exactly when the
underlying listing is alphabetical, as in the witness — the code itself
never sorts. -/
theorem filesFrags_sorted_of_listing_sorted (rel : List String) (mode : String)
    (exts : List String) (files : List (String × Option (List Nat)))
    (hs : List.Pairwise (fun a b => strLe a b = true) (files.map Prod.fst)) :
    List.Pairwise (fun a b => strLe a b = true)
      ((filesFrags rel mode exts files).map Frag.name) :=
  List.Pairwise.sublist (filesFrags_names_sublist rel mode exts files) hs

theorem filesFrags_sorted_of_listing_sorted_witness :
    List.Pairwise (fun a b => strLe a b = true)
      ((filesFrags [] "none" [".txt"]
        [("a.txt", some [104]), ("b.txt", some [105])]).map Frag.name) :=
  filesFrags_sorted_of_listing_sorted [] "none" [".txt"]
    [("a.txt", some [104]), ("b.txt", some [105])] (by decide)

end ProjectSum
